import Mathlib

/-!
Verification of the geo-content build pipeline of the aviator-landing
repository (`packages/build/build.ts`), its dev-server rebuild lock
(`dev.js`) and the waitlist service
(`packages/react-ui/src/lib/waitlist-service.ts`).

Strings are shallowly embedded as `List Char` (named `Str`).  The
JavaScript string operations used by the source are modelled faithfully:
`String.prototype.replace` with a string replacement argument performs
ECMAScript `GetSubstitution` expansion of `$$`, `$&`, the backtick and
quote forms and `$n`; case-insensitive (`i` flag, no `u` flag) matching
canonicalises ASCII letters only, so a non-ASCII character never matches
an ASCII pattern character, which is exactly ECMAScript behaviour for
regexes without the unicode flag.  The `elementId` interpolated into the
element regex is treated as literal text (as in the shipped
configurations, e.g. "geo-root").
-/

/-- Strings of the embedded JavaScript world: lists of characters. -/
abbrev Str := List Char

/-- The single-quote character, written by code point to keep sources plain. -/
def quoteChar : Char := Char.ofNat 39

/-- The backtick character, written by code point to keep sources plain. -/
def backChar : Char := Char.ofNat 96

/-- ECMAScript `\s`: the WhiteSpace and LineTerminator code points. -/
def jsWS (c : Char) : Bool :=
  c = ' ' || c = Char.ofNat 9 || c = Char.ofNat 10 || c = Char.ofNat 11 ||
  c = Char.ofNat 12 || c = Char.ofNat 13 || c = Char.ofNat 160 ||
  c = Char.ofNat 5760 || (Char.ofNat 8192 ≤ c && c ≤ Char.ofNat 8202) ||
  c = Char.ofNat 8232 || c = Char.ofNat 8233 || c = Char.ofNat 8239 ||
  c = Char.ofNat 8287 || c = Char.ofNat 12288 || c = Char.ofNat 65279

/-- The two quote characters accepted by the character class in the element
regex of `replaceRootDiv`. -/
def isQuote (c : Char) : Bool := c = '"' || c = quoteChar

/-- Case-insensitive character comparison of a regex without the `u` flag:
only ASCII letters are folded (`Char.toLower` is ASCII-only), so a
non-ASCII character never equals an ASCII pattern character. -/
def ciEq (a b : Char) : Bool := a.toLower = b.toLower

/-- Does `s` start with a case-insensitive occurrence of `pat`? -/
def ciStarts : Str → Str → Bool
  | [], _ => true
  | _ :: _, [] => false
  | p :: ps, c :: cs => ciEq p c && ciStarts ps cs

/-- Leftmost case-insensitive occurrence of `pat` in a suffix, reporting the
absolute index (the scan starts at index `i`). -/
def findCIAux (pat : Str) : Str → Nat → Option Nat
  | [], i => if ciStarts pat [] then some i else none
  | c :: rest, i =>
    if ciStarts pat (c :: rest) then some i else findCIAux pat rest (i + 1)

/-- Leftmost case-insensitive occurrence of `pat` in `s`. -/
def findCI (pat s : Str) : Option Nat := findCIAux pat s 0

/-- Index of the first greater-than sign, the character ending an HTML open
tag in the regexes `<head[^>]*>`, `<html[^>]*>` of `injectCssLink`. -/
def gtSearch : Str → Option Nat
  | [] => none
  | c :: r => if c = '>' then some 0 else (gtSearch r).map (· + 1)

/-- Leftmost match of the regex `<name[^>]*>` with the `i` flag: a
case-insensitive `<name`, then the run of characters up to the first
following greater-than sign.  Returns the start index and match length. -/
def findOpenTagAux (name : Str) : Str → Nat → Option (Nat × Nat)
  | [], _ => none
  | c :: rest, i =>
    if ciStarts ('<' :: name) (c :: rest) then
      match gtSearch ((c :: rest).drop (name.length + 1)) with
      | some k => some (i, name.length + 1 + k + 1)
      | none => findOpenTagAux name rest (i + 1)
    else findOpenTagAux name rest (i + 1)

/-- Leftmost match of `<name[^>]*>` (case-insensitive) in `s`. -/
def findOpenTag (name s : Str) : Option (Nat × Nat) := findOpenTagAux name s 0

/-- ECMAScript `GetSubstitution`: expansion of a string replacement argument
of `String.prototype.replace`.  `matched` is the matched substring, `pre`
and `post` the text before and after the match, `groups` the capture
groups.  A dollar sign is inspected with the one- or two-character
lookahead of the ECMAScript algorithm (`$$`, `$&`, dollar-backtick,
dollar-quote, `$n`, `$nn`); a dollar sign starting no template is literal
and scanning continues after it. -/
def expandSub (matched pre post : Str) (groups : List Str) : Str → Str
  | [] => []
  | ['$'] => ['$']
  | ['$', c] =>
    if c = '$' then ['$']
    else if c = '&' then matched
    else if c = backChar then pre
    else if c = quoteChar then post
    else if c.isDigit then
      if 1 ≤ c.toNat - 48 ∧ c.toNat - 48 ≤ groups.length then
        groups.getD (c.toNat - 49) []
      else ['$', c]
    else ['$', c]
  | '$' :: c :: d2 :: r3 =>
    if c = '$' then '$' :: expandSub matched pre post groups (d2 :: r3)
    else if c = '&' then matched ++ expandSub matched pre post groups (d2 :: r3)
    else if c = backChar then pre ++ expandSub matched pre post groups (d2 :: r3)
    else if c = quoteChar then post ++ expandSub matched pre post groups (d2 :: r3)
    else if c.isDigit then
      if d2.isDigit then
        let nn := (c.toNat - 48) * 10 + (d2.toNat - 48)
        if 1 ≤ nn ∧ nn ≤ groups.length then
          groups.getD (nn - 1) [] ++ expandSub matched pre post groups r3
        else if 1 ≤ c.toNat - 48 ∧ c.toNat - 48 ≤ groups.length then
          groups.getD (c.toNat - 49) [] ++ expandSub matched pre post groups (d2 :: r3)
        else '$' :: expandSub matched pre post groups (c :: d2 :: r3)
      else if 1 ≤ c.toNat - 48 ∧ c.toNat - 48 ≤ groups.length then
        groups.getD (c.toNat - 49) [] ++ expandSub matched pre post groups (d2 :: r3)
      else '$' :: expandSub matched pre post groups (c :: d2 :: r3)
    else '$' :: expandSub matched pre post groups (c :: d2 :: r3)
  | c :: r => c :: expandSub matched pre post groups r

/-- Replace the range `[i, i+len)` of `orig` by the `GetSubstitution`
expansion of the replacement string `replStr`: the effect of a successful
`String.prototype.replace` at that range. -/
def replaceRange (orig : Str) (i len : Nat) (groups : List Str) (replStr : Str) : Str :=
  orig.take i ++
    expandSub ((orig.drop i).take len) (orig.take i) (orig.drop (i + len)) groups replStr ++
    orig.drop (i + len)

/-- The link tag built by `injectCssLink` for a CSS path. -/
def cssLinkFor (p : Str) : Str :=
  ("<link href=\"").toList ++ p ++ ("\" rel=\"stylesheet\" media=\"all\" />").toList

/-- The default CSS path of `injectCssLink` (its only call site in `main`
uses the default). -/
def defaultCssPath : Str := ("./css/geo.css").toList

/-- Embedding of `injectCssLink` from `build.ts`: return the input when it
already contains the link tag; otherwise insert before the first `</head>`
(case-insensitive), else after the first `<head...>`, else after the first
`<html...>`, else prepend a head section.  The first three insertions go
through `String.prototype.replace` with a string replacement and hence
through `GetSubstitution`; the last is template-literal concatenation. -/
def injectCssLink (html : Str) (cssPath : Str) : Str :=
  let cssLink := cssLinkFor cssPath
  if cssLink <:+: html then html
  else
    match findCI (("</head>").toList) html with
    | some i =>
      replaceRange html i 7 [] (("  ").toList ++ cssLink ++ ("\n</head>").toList)
    | none =>
      match findOpenTag (("head").toList) html with
      | some (i, len) =>
        replaceRange html i len []
          (((html.drop i).take len) ++ ("\n  ").toList ++ cssLink)
      | none =>
        match findOpenTag (("html").toList) html with
        | some (i, len) =>
          replaceRange html i len []
            (((html.drop i).take len) ++ ("\n<head>\n  ").toList ++ cssLink ++
              ("\n</head>").toList)
        | none =>
          ("<head>\n  ").toList ++ cssLink ++ ("\n</head>\n").toList ++ html

/-- Does `s` start with `id=` (case-insensitive), a quote, the element id
(case-insensitive), and a closing quote?  This is the tail
`id=["']eid["']` of the attribute part of the element regex of
`replaceRootDiv`; the two quotes are independent character classes. -/
def idAt (eid : Str) (s : Str) : Bool :=
  ciStarts (("id=").toList) s &&
  (match s.drop 3 with
   | q :: t2 =>
     isQuote q && ciStarts eid t2 &&
     (match t2.drop eid.length with
      | q2 :: _ => isQuote q2
      | [] => false)
   | [] => false)

/-- Does the attribute region match `[^>]*\s+id=["']eid["'][^>]*`, i.e. does
it contain a whitespace character immediately followed by the id pattern?
The region itself contains no greater-than sign by construction. -/
def attrsOK (eid : Str) : Str → Bool
  | [] => false
  | c :: rest => (jsWS c && idAt eid rest) || attrsOK eid rest

/-- Backtracking over the greedy tag-name group `([a-zA-Z][a-zA-Z0-9]*)` of
the element regex, from the longest tag name down.  `rest` is the text
after the opening `<` and `pre` the run of characters before the first
greater-than sign (the extent of the opening tag).  For tag-name length
`kk` the attribute region is `pre.drop kk`; the lazy content group ends at
the first case-insensitive occurrence of `</name>` after the opening tag.
Returns full match length and the three capture groups. -/
def tryK (eid rest pre : Str) : Nat → Option (Nat × Str × Str × Str)
  | 0 => none
  | k + 1 =>
    let kk := k + 1
    if attrsOK eid (pre.drop kk) then
      match findCI ('<' :: '/' :: (rest.take kk) ++ ['>']) (rest.drop (pre.length + 1)) with
      | some c =>
        some (1 + pre.length + 1 + c + (kk + 3), rest.take kk, pre.drop kk,
          (rest.drop (pre.length + 1)).take c)
      | none => tryK eid rest pre k
    else tryK eid rest pre k

/-- Match of the element regex
`<([a-zA-Z][a-zA-Z0-9]*)([^>]*\s+id=["']eid["'][^>]*)>(.*?)</\1>` (flags
`gis`) at the start of `u`, following the backtracking search order of the
ECMAScript engine: the opening tag extends to the first greater-than sign,
tag names are tried longest first, and the lazy content stops at the first
matching close tag.  Returns match length and capture groups. -/
def elemMatchLen (eid : Str) : Str → Option (Nat × Str × Str × Str)
  | '<' :: rest =>
    let pre := rest.takeWhile (· ≠ '>')
    if pre.length = rest.length then none
    else
      match rest with
      | c0 :: _ =>
        if c0.isAlpha then tryK eid rest pre (rest.takeWhile Char.isAlphanum).length
        else none
      | [] => none
  | _ => none

/-- A successful element match consumes at least one character. -/
theorem tryK_len_pos {eid rest pre : Str} :
    ∀ {k : Nat} {r : Nat × Str × Str × Str}, tryK eid rest pre k = some r → 1 ≤ r.1 := by
  intro k
  induction k with
  | zero => intro r h; simp [tryK] at h
  | succ k ih =>
    intro r h
    rw [tryK] at h
    split at h
    · split at h
      · injection h with h'
        subst h'
        omega
      · exact ih h
    · exact ih h

/-- A successful element match consumes at least one character and implies
a nonempty input. -/
theorem elemMatchLen_pos {eid u : Str} {r : Nat × Str × Str × Str}
    (h : elemMatchLen eid u = some r) : 1 ≤ r.1 ∧ u ≠ [] := by
  refine ⟨?_, ?_⟩
  · rw [elemMatchLen.eq_def] at h
    repeat' split at h
    all_goals first | exact tryK_len_pos h | simp_all
    all_goals exact tryK_len_pos h.2
  · rintro rfl
    rw [elemMatchLen.eq_def] at h
    simp at h

/-- Global (`g` flag) replacement of every element-regex match, inserting
the `GetSubstitution` expansion of the replacement string `rwc` for each
match, as `String.prototype.replace` does; unmatched characters are
copied.  `revPre` is the reversed text already scanned (the text before
the current position in the whole subject string, needed by the
dollar-backtick and dollar-quote templates), `u` the remaining suffix.
The fuel only bounds the recursion: each step consumes at least one
character, so fuel equal to the subject length is never exhausted. -/
def replaceAllGo (eid rwc : Str) : Nat → Str → Str → Str
  | 0, _, u => u
  | fuel + 1, revPre, u =>
    match elemMatchLen eid u with
    | some r =>
      expandSub (u.take r.1) revPre.reverse (u.drop r.1)
        [r.2.1, r.2.2.1, r.2.2.2] rwc ++
        replaceAllGo eid rwc fuel ((u.take r.1).reverse ++ revPre) (u.drop r.1)
    | none =>
      match u with
      | [] => []
      | c :: rest => c :: replaceAllGo eid rwc fuel (c :: revPre) rest

/-- Embedding of the section detection of `replaceRootDiv`: an anchored
match of `^<section(\s[^>]*)?>(.*)(<\/section>)$` with the `s` flag
(case-sensitive).  Returns the optional attribute group and the content
group; the third group is always the literal `</section>`. -/
def sectionDecompose (repl : Str) : Option (Str × Str) :=
  if (("<section").toList) <+: repl then
    match repl.drop 8 with
    | [] => none
    | c :: t =>
      if jsWS c then
        let run := t.takeWhile (· ≠ '>')
        match t.drop run.length with
        | '>' :: body =>
          if (("</section>").toList) <:+ body then
            some (c :: run, body.take (body.length - 10))
          else none
        | _ => none
      else if c = '>' then
        if (("</section>").toList) <:+ t then some ([], t.take (t.length - 10))
        else none
      else none
  else none

/-- Does the first-match regex `class=["']([^"']*)["']` of `replaceRootDiv`
match at the start of `s`?  The group takes the maximal run of non-quote
characters after the opening quote; the match needs some quote after it. -/
def classAt (s : Str) : Bool :=
  (("class=").toList) <+: s &&
  (match s.drop 6 with
   | q :: t =>
     isQuote q && !((t.takeWhile (fun c => !(isQuote c))).length = t.length)
   | [] => false)

/-- Leftmost match position of the class-attribute regex. -/
def findClassIdx : Str → Nat → Option Nat
  | [], _ => none
  | c :: rest, i => if classAt (c :: rest) then some i else findClassIdx rest (i + 1)

/-- Embedding of
`replacement.replace(/class=["']([^"']*)["']/, 'class="$1 geo-root"')`:
first match only, replacement string expanded by `GetSubstitution` with the
single capture group. -/
def classReplace (s : Str) : Str :=
  match findClassIdx s 0 with
  | none => s
  | some i =>
    let run := (s.drop (i + 7)).takeWhile (fun c => !(isQuote c))
    replaceRange s i (6 + 1 + run.length + 1) [run] (("class=\"$1 geo-root\"").toList)

/-- Embedding of the geo-root class logic of `replaceRootDiv`: a replacement
that is a whole `<section>` element gets the class `geo-root` added (via
the class regex when its attributes contain `class=`, by splicing a class
attribute otherwise); any other replacement is wrapped in a
`<section class="geo-root">` element. -/
def addGeoRootClass (repl : Str) : Str :=
  match sectionDecompose repl with
  | some (attrs, content) =>
    if (("class=").toList) <:+: attrs then classReplace repl
    else
      ("<section").toList ++ attrs ++ (" class=\"geo-root\">").toList ++ content ++
        ("</section>").toList
  | none => ("<section class=\"geo-root\">").toList ++ repl ++ ("</section>").toList

/-- Embedding of `replaceRootDiv` from `build.ts`: global replacement of the
element regex for `elementId` by the geo-root-classed replacement, through
the string-replacement semantics of `String.prototype.replace`. -/
def replaceRootDiv (html elementId repl : Str) : Str :=
  replaceAllGo elementId (addGeoRootClass repl) html.length [] html

/-- The behaviour described by the specification sentence for
`replaceRootDiv`: every substring matching the element regex is replaced
by the geo-root-classed replacement HTML itself (verbatim, with no
replacement-pattern expansion).  Same scan as `replaceAllGo`. -/
def specReplaceGo (eid rwc : Str) : Nat → Str → Str
  | 0, u => u
  | fuel + 1, u =>
    match elemMatchLen eid u with
    | some r => rwc ++ specReplaceGo eid rwc fuel (u.drop r.1)
    | none =>
      match u with
      | [] => []
      | c :: rest => c :: specReplaceGo eid rwc fuel rest

/-- `replaceRootDiv` as the specification sentence states it: matches of the
element regex replaced by the geo-root-classed replacement verbatim. -/
def specReplaceRootDiv (html elementId repl : Str) : Str :=
  specReplaceGo elementId (addGeoRootClass repl) html.length html

/-- The base rule emitted first by `generateCssContent`. -/
def geoBaseRule : String := ".geo-root \x7b\n    display: none;\n\x7d\n"

/-- Embedding of `generateCssContent` from `build.ts`.  The argument is
`some contents` when a `geoCss` path is configured and that file exists
(then `contents` is what `readFileSync` returns), `none` otherwise. -/
def generateCssContent (geoCss : Option String) : String :=
  match geoCss with
  | some css => geoBaseRule ++ "\n" ++ css
  | none => geoBaseRule

/-- A directory tree: files with contents, directories with a named entry
list in `readdirSync` order. -/
inductive FSTree where
  | file : String → FSTree
  | dir : List (String × FSTree) → FSTree

/-- Is `n` a key of the entry list? -/
def containsKey : List (String × FSTree) → String → Bool
  | [], _ => false
  | (m, _) :: rest, n => m = n || containsKey rest n

/-- Entry lists of real directories have pairwise distinct names. -/
def keysNodup : List (String × FSTree) → Bool
  | [] => true
  | (n, _) :: rest => !containsKey rest n && keysNodup rest

mutual

/-- Well-formedness of a tree: every directory has pairwise distinct entry
names (true of any tree produced by `readdirSync`). -/
def wfT : FSTree → Bool
  | .file _ => true
  | .dir es => keysNodup es && wfL es

/-- Well-formedness of every subtree of an entry list. -/
def wfL : List (String × FSTree) → Bool
  | [] => true
  | e :: rest => wfT e.2 && wfL rest

end

/-- The slash-joined relative path used by `copyDir` for the ignore test:
`path.relative(SRC_DIR, srcPath).split(path.sep).join('/')`. -/
def joinPath (p : List String) : String := String.intercalate "/" p

/-- The ignore test of `copyDir`: an entry named `n`, reached from the
top-level source directory through the components `pre`, is skipped when
its base name or slash-joined relative path is in the ignore list. -/
def passes (ignoreList : List String) (pre : List String) (n : String) : Bool :=
  !(ignoreList.contains n || ignoreList.contains (joinPath (pre ++ [n])))

mutual

/-- Embedding of `copyDir` from `build.ts`, as invoked by `main` on the
top-level source directory: `pre` is the component path from `SRC_DIR` to
the directory being copied (so the relative path of an entry `n` is
`pre ++ [n]`).  An entry failing the ignore test is skipped entirely;
directories recurse, files are copied. -/
def copyDirT (ignoreList : List String) (pre : List String) : FSTree → FSTree
  | .file c => .file c
  | .dir es => .dir (copyEntries ignoreList pre es)

/-- The `readdirSync` iteration of `copyDir` over one entry list. -/
def copyEntries (ignoreList : List String) (pre : List String) :
    List (String × FSTree) → List (String × FSTree)
  | [] => []
  | (n, t) :: rest =>
    if passes ignoreList pre n then
      (n, copyDirT ignoreList (pre ++ [n]) t) :: copyEntries ignoreList pre rest
    else copyEntries ignoreList pre rest

end

/-- First entry of the list with the given name. -/
def findEntry : List (String × FSTree) → String → Option FSTree
  | [], _ => none
  | (m, t) :: rest, n => if m = n then some t else findEntry rest n

/-- Contents of the file reached from `t` by the component path. -/
def lookupFile : FSTree → List String → Option String
  | .file c, [] => some c
  | .dir _, [] => none
  | .file _, _ :: _ => none
  | .dir es, n :: p =>
    match findEntry es n with
    | some t => lookupFile t p
    | none => none

/-- Does every nonempty prefix of the path pass the ignore test?  `pre` is
the component path already descended from the top-level source dir. -/
def allPasses (ignoreList : List String) : List String → List String → Bool
  | _, [] => true
  | pre, n :: p => passes ignoreList pre n && allPasses ignoreList (pre ++ [n]) p

/-- A replacement entry of `geo.json`, as typed in `build.ts`. -/
structure ReplacementConfig where
  targetHtml : String
  elementId : String
  replacementFile : String

/-- The flat file system the build writes into, keyed by path. -/
def BuildFS : Type := String → Option String

/-- Write one file. -/
def writeFS (fs : BuildFS) (p : String) (c : String) : BuildFS :=
  fun q => if q = p then some c else fs q

/-- `path.join(DIST_DIR, targetHtml)`, with the workspace root elided. -/
def distPath (t : String) : String := "dist/" ++ t

/-- `path.join(GEO_DIR, replacementFile)`, with the workspace root elided. -/
def geoPath (geoDir : String) (r : String) : String := geoDir ++ "/" ++ r

/-- One iteration of the replacement loop of `main` in `build.ts`: a missing
target or replacement file is warned about and skipped; otherwise the
target is rewritten with `replaceRootDiv` followed by `injectCssLink` at
the default CSS path. -/
def applyReplacement (geoDir : String) (fs : BuildFS) (rc : ReplacementConfig) : BuildFS :=
  match fs (distPath rc.targetHtml) with
  | none => fs
  | some html =>
    match fs (geoPath geoDir rc.replacementFile) with
    | none => fs
    | some repl =>
      writeFS fs (distPath rc.targetHtml)
        (List.asString
          (injectCssLink (replaceRootDiv html.toList rc.elementId.toList repl.toList)
            defaultCssPath))

/-- The whole replacement loop of `main` over the configured entries. -/
def runReplacements (geoDir : String) (fs : BuildFS) (rcs : List ReplacementConfig) : BuildFS :=
  rcs.foldl (applyReplacement geoDir) fs

/-- Outcome of one clean-and-recreate attempt on the dist directory.  `busy`
stands for an error with code ENOTEMPTY or EBUSY, `other` for any other
file-system error. -/
inductive AttemptOutcome where
  | ok
  | busy
  | other
deriving DecidableEq

/-- How the dist-directory setup phase of `main` ends. -/
inductive SetupResult where
  | cleanReady
  | proceedWithExisting
  | buildFailed
deriving DecidableEq

/-- Embedding of the retry loop of `main` in `build.ts` (`maxRetries = 3`):
attempt `rc` is the one performed with `retryCount = rc`.  On success the
loop breaks with a clean directory; on a busy error it retries until
`retryCount` reaches 3 and then proceeds with the existing files; any
other error is rethrown and caught by the outer handler, which fails the
build.  Returns the outcome and the number of attempts performed. -/
def setupLoop (env : Nat → AttemptOutcome) : Nat → Nat → SetupResult × Nat
  | 0, rc => (.proceedWithExisting, rc)
  | fuel + 1, rc =>
    match env rc with
    | .ok => (.cleanReady, rc + 1)
    | .other => (.buildFailed, rc + 1)
    | .busy =>
      if rc + 1 ≥ 3 then (.proceedWithExisting, rc + 1)
      else setupLoop env fuel (rc + 1)

/-- The dist-directory setup phase of `main`, starting at `retryCount = 0`.
The fuel `3 - retryCount` makes the `while (retryCount < maxRetries)`
condition structural: fuel zero is the loop condition turning false, after
which the build proceeds with whatever the dist directory holds (this
branch is unreachable from the initial state, since every busy attempt
either retries with fuel left or breaks at `retryCount = 3`). -/
def setupDist (env : Nat → AttemptOutcome) : SetupResult × Nat := setupLoop env 3 0

/-- Flat characterisation of the setup phase: the first three attempt
outcomes decide the result. -/
def setupDistSpec (o0 o1 o2 : AttemptOutcome) : SetupResult × Nat :=
  match o0 with
  | .ok => (.cleanReady, 1)
  | .other => (.buildFailed, 1)
  | .busy =>
    match o1 with
    | .ok => (.cleanReady, 2)
    | .other => (.buildFailed, 2)
    | .busy =>
      match o2 with
      | .ok => (.cleanReady, 3)
      | .other => (.buildFailed, 3)
      | .busy => (.proceedWithExisting, 3)

/-- The build-lock state of `dev.js`: the module-level mutable flags. -/
structure DevState where
  buildInProgress : Bool
  pendingBuild : Bool
deriving DecidableEq

/-- The synchronous prefix of `debouncedBuild` in `dev.js`: when a build is
in progress the request only marks a pending build and returns (second
component `false`: no build started); otherwise it takes the lock and
starts a build. -/
def debouncedBuildStart (s : DevState) : DevState × Bool :=
  if s.buildInProgress then (⟨s.buildInProgress, true⟩, false)
  else (⟨true, false⟩, true)

/-- The `finally` block of `debouncedBuild`: the lock is released and a
pending build is rescheduled (second component: whether a follow-up
`debouncedBuild` call is scheduled). -/
def buildFinish (s : DevState) : DevState × Bool :=
  (⟨false, s.pendingBuild⟩, s.pendingBuild)

/-- The inline lock in the change handler of the geo watcher in `dev.js`:
identical deferral of requests arriving during a build. -/
def geoHandlerStart (s : DevState) : DevState × Bool :=
  if s.buildInProgress then (⟨s.buildInProgress, true⟩, false)
  else (⟨true, s.pendingBuild⟩, true)

/-- Events of the dev-server rebuild system: an incoming rebuild request
(watcher callback or rescheduled pending build) or the completion of the
running build. -/
inductive DevEv where
  | request
  | finish

/-- One step of the rebuild system on the lock state paired with the number
of builds currently executing. -/
def devStep (p : DevState × Nat) (e : DevEv) : DevState × Nat :=
  match e with
  | .request =>
    let q := debouncedBuildStart p.1
    (q.1, p.2 + (if q.2 then 1 else 0))
  | .finish =>
    if p.1.buildInProgress then ((buildFinish p.1).1, p.2 - 1) else p

/-- Run the rebuild system from the initial module state (no build running,
nothing pending). -/
def devRun (evs : List DevEv) : DevState × Nat :=
  evs.foldl devStep (⟨false, false⟩, 0)

/-- The runtime argument of `addToWaitlist`: the declared type is `string`,
but a JavaScript caller can pass anything, which the `typeof` check
handles. -/
inductive JsArg where
  | str : String → JsArg
  | notAString : JsArg

/-- The response type of the `addToWaitlist` callable. -/
structure AddToWaitlistResponse where
  success : Bool
  message : String

/-- The error message thrown by `addToWaitlist` on invalid input. -/
def emailErrMsg : String := "Email is required and must be a string"

/-- Embedding of `addToWaitlist` from `waitlist-service.ts`.  The guard
`!email || typeof email !== 'string'` rejects exactly the empty string and
every non-string argument; otherwise the Firebase callable is invoked with
the email and its response data is returned (a failure of the callable is
rethrown).  The second component records the invocations of the callable,
so that "without invoking the callable" is observable. -/
def addToWaitlist (callable : String → Except String AddToWaitlistResponse)
    (email : JsArg) : Except String AddToWaitlistResponse × List String :=
  match email with
  | .notAString => (.error emailErrMsg, [])
  | .str s =>
    if s = "" then (.error emailErrMsg, [])
    else
      match callable s with
      | .ok r => (.ok r, [s])
      | .error e => (.error e, [s])

/-! ## Theorems -/

/-- C1: the replacement loop of `main` injects geo-specific content into the
prebuilt HTML: for every entry of the configured replacement list, when
both the target file in dist and the replacement file in the geo directory
exist, the target is rewritten by replacing the element carrying the
configured id (via `replaceRootDiv`, with the CSS link then ensured by
`injectCssLink`); when either file is missing the entry is skipped and the
file system is left unchanged, and the loop continues with the remaining
entries either way. -/
theorem c1_replacement_pipeline (geoDir : String) (fs : BuildFS)
    (rc : ReplacementConfig) (rest : List ReplacementConfig) :
    runReplacements geoDir fs (rc :: rest) =
      runReplacements geoDir
        (match fs (distPath rc.targetHtml), fs (geoPath geoDir rc.replacementFile) with
         | some html, some repl =>
           writeFS fs (distPath rc.targetHtml)
             (List.asString
               (injectCssLink (replaceRootDiv html.toList rc.elementId.toList repl.toList)
                 defaultCssPath))
         | some _, none => fs
         | none, _ => fs) rest := by
  rcases h1 : fs (distPath rc.targetHtml) with _ | html <;>
    rcases h2 : fs (geoPath geoDir rc.replacementFile) with _ | repl <;>
      simp [runReplacements, applyReplacement, h1, h2]

/-- C3 counterexample: when every cleanup attempt fails with a busy error
(ENOTEMPTY/EBUSY), `main` performs three attempts — it retries — and then
falls back to proceeding with the existing dist contents, contradicting
the claim that the build neither retries nor falls back. -/
theorem c3_counterexample :
    setupDist (fun _ => AttemptOutcome.busy) = (SetupResult.proceedWithExisting, 3) := by
  decide

/-- C3 amended: the dist-directory setup of `main` does have a
failure-recovery design: a busy error (ENOTEMPTY/EBUSY) is retried up to
three attempts in total, after which the build proceeds with the existing
directory contents; a success stops the attempts with a clean directory;
any other file-system error aborts the build at that attempt without
further retries.  The first three attempt outcomes fully determine the
result, as described by `setupDistSpec`. -/
theorem c3_amended (env : Nat → AttemptOutcome) :
    setupDist env = setupDistSpec (env 0) (env 1) (env 2) := by
  rcases h0 : env 0 <;> rcases h1 : env 1 <;> rcases h2 : env 2 <;>
    simp [setupDist, setupLoop, setupDistSpec, h0, h1, h2]

/-- C4 counterexample: two rebuild requests from the initial dev-server
state leave exactly one build running with the pending flag set — the
second request is deferred by the `buildInProgress` lock instead of
starting a second concurrent build, contradicting the claim. -/
theorem c4_counterexample :
    devRun [DevEv.request, DevEv.request] = (⟨true, true⟩, 1) := by decide

/-- C4 amended: the dev pipeline does coordinate rebuilds: along any event
sequence at most one build executes at a time, and a request arriving
while `buildInProgress` holds (through `debouncedBuild` or the geo-watcher
handler) starts no build and only records a pending build. -/
theorem c4_amended :
    (∀ evs : List DevEv, (devRun evs).2 ≤ 1) ∧
    (∀ s : DevState, s.buildInProgress = true →
      debouncedBuildStart s = (⟨true, true⟩, false)) ∧
    (∀ s : DevState, s.buildInProgress = true →
      geoHandlerStart s = (⟨true, true⟩, false)) := by
  refine ⟨?_, ?_, ?_⟩
  · intro evs
    suffices h : ∀ p : DevState × Nat, p.2 = (if p.1.buildInProgress then 1 else 0) →
        (List.foldl devStep p evs).2 =
          (if (List.foldl devStep p evs).1.buildInProgress then 1 else 0) by
      have h0 := h (⟨false, false⟩, 0) (by simp)
      rw [devRun, h0]
      split <;> omega
    induction evs with
    | nil => intro p hp; simpa using hp
    | cons e evs ih =>
      intro p hp
      rw [List.foldl_cons]
      refine ih _ ?_
      rcases e with _ | _
      · by_cases hb : p.1.buildInProgress <;>
          simp [devStep, debouncedBuildStart, hb, hp]
      · by_cases hb : p.1.buildInProgress <;>
          simp [devStep, buildFinish, hb, hp]
  · intro s hs
    simp [debouncedBuildStart, hs]
  · intro s hs
    simp [geoHandlerStart, hs]

/-- Witness for the amended C4 theorem at concrete inputs. -/
theorem c4_witness :
    (devRun [DevEv.request, DevEv.finish, DevEv.request]).2 ≤ 1 ∧
    debouncedBuildStart ⟨true, false⟩ = (⟨true, true⟩, false) ∧
    geoHandlerStart ⟨true, true⟩ = (⟨true, true⟩, false) :=
  ⟨c4_amended.1 _, c4_amended.2.1 _ rfl, c4_amended.2.2 _ rfl⟩

/-- C5: `generateCssContent` returns exactly the base geo-root rule when no
geo CSS file is available, the base rule followed by a newline and the
verbatim file contents when it is, and its output always begins with the
base rule. -/
theorem c5_generateCssContent :
    generateCssContent none = ".geo-root \x7b\n    display: none;\n\x7d\n" ∧
    (∀ css, generateCssContent (some css) =
      ".geo-root \x7b\n    display: none;\n\x7d\n" ++ "\n" ++ css) ∧
    (∀ g, (".geo-root \x7b\n    display: none;\n\x7d\n").data <+: (generateCssContent g).data) := by
  refine ⟨rfl, fun css => rfl, fun g => ?_⟩
  rcases g with _ | css
  · exact List.prefix_refl _
  · show _ <+: (geoBaseRule ++ "\n" ++ css).data
    rw [String.data_append, String.data_append]
    exact ⟨("\n").data ++ css.data, by simp [geoBaseRule]⟩

/-- C9: `addToWaitlist` rejects the empty string and every non-string
argument with the fixed error before invoking the Firebase callable (the
recorded invocation list is empty), and for a nonempty string it invokes
the callable once with the email and resolves with its response data. -/
theorem c9_addToWaitlist (callable : String → Except String AddToWaitlistResponse) :
    (∀ e : JsArg, (e = .str "" ∨ e = .notAString) →
      addToWaitlist callable e = (.error emailErrMsg, [])) ∧
    (∀ (s : String) (r : AddToWaitlistResponse), s ≠ "" → callable s = .ok r →
      addToWaitlist callable (.str s) = (.ok r, [s])) := by
  constructor
  · rintro e (rfl | rfl) <;> simp [addToWaitlist]
  · intro s r hs hc
    simp [addToWaitlist, hs, hc]

/-- Witness for C9 with a concrete callable and concrete emails. -/
theorem c9_witness :
    addToWaitlist (fun _ => .ok ⟨true, "added"⟩) (.str "") =
      (.error emailErrMsg, []) ∧
    addToWaitlist (fun _ => .ok ⟨true, "added"⟩) (.str "a@b.co") =
      (.ok ⟨true, "added"⟩, ["a@b.co"]) :=
  ⟨(c9_addToWaitlist _).1 _ (Or.inl rfl),
    (c9_addToWaitlist _).2 "a@b.co" _ (by decide) rfl⟩

/-- A list is an infix of itself prefixed by anything. -/
theorem infix_of_append_self (X : Str) {l : Str} : l <:+: X ++ l :=
  ⟨X, [], by simp⟩

/-- Prepending preserves the infix relation. -/
theorem infix_append_of (X : Str) {l L : Str} (h : l <:+: L) : l <:+: X ++ L := by
  obtain ⟨u, v, huv⟩ := h
  exact ⟨X ++ u, v, by rw [← huv]; simp [List.append_assoc]⟩

/-- Consing preserves the infix relation. -/
theorem infix_cons_of (c : Char) {l L : Str} (h : l <:+: L) : l <:+: c :: L :=
  infix_append_of [c] h

/-- A character other than the dollar sign is copied by `GetSubstitution`. -/
theorem expand_cons_ne (ma pr po : Str) (gs : List Str) {c : Char} {r : Str}
    (h : c ≠ '$') :
    expandSub ma pr po gs (c :: r) = c :: expandSub ma pr po gs r := by
  simp [expandSub, h]

/-- `GetSubstitution` is the identity on replacement strings without a
dollar sign. -/
theorem expand_of_noDollar (ma pr po : Str) (gs : List Str) :
    ∀ {s : Str}, '$' ∉ s → expandSub ma pr po gs s = s := by
  intro s
  induction s with
  | nil => intro _; rfl
  | cons c r ih =>
    intro h
    have hc : c ≠ '$' := by rintro rfl; exact h (List.mem_cons_self _ _)
    have hr : '$' ∉ r := fun hh => h (List.mem_cons_of_mem _ hh)
    rw [expand_cons_ne ma pr po gs hc, ih hr]

/-- A dollar-free tail opening with a newline survives `GetSubstitution`
verbatim as an infix, whatever precedes it: a newline neither continues a
`$`-template nor starts one, so the expansion never rewrites into the
tail. -/
theorem expand_infix_tail (ma pr po : Str) (gs : List Str) (t' : Str)
    (ht : '$' ∉ t') :
    ∀ s : Str, ('\n' :: t') <:+: expandSub ma pr po gs (s ++ '\n' :: t') := by
  have hL : expandSub ma pr po gs t' = t' := expand_of_noDollar ma pr po gs ht
  have hLf : expandSub ma pr po gs ('\n' :: t') = '\n' :: t' := by
    rw [expand_cons_ne ma pr po gs (by decide), hL]
  intro s
  generalize hlen : s.length = n
  induction n using Nat.strong_induction_on generalizing s with
  | _ n ih =>
  rcases s with _ | ⟨c, s1⟩
  · rw [List.nil_append, hLf]
  · by_cases hc : c = '$'
    · subst hc
      rcases s1 with _ | ⟨c2, s2⟩
      · rcases t' with _ | ⟨t0, t''⟩
        · simp [expandSub, backChar, quoteChar]
          decide
        · have ht'' : '$' ∉ (t0 :: t'') := ht
          simp only [List.cons_append, List.nil_append]
          simp only [expandSub, backChar, quoteChar]
          simp only [expand_of_noDollar ma pr po gs ht'', if_neg (by decide : ¬('\n' = '$')),
            if_neg (by decide : ¬('\n' = '&')),
            if_neg (show ¬('\n' = backChar) by decide),
            if_neg (show ¬('\n' = quoteChar) by decide),
            if_neg (by decide : ¬('\n'.isDigit = true))]
          exact infix_cons_of '$' List.infix_rfl
      · rcases s2 with _ | ⟨d, s3⟩
        · simp only [List.cons_append, List.nil_append]
          simp only [expandSub, backChar, quoteChar,
            if_neg (show ¬('\n'.isDigit = true) by decide), hL, hLf]
          split_ifs with h1 h2 h3 h4 h5 h6
          · exact infix_of_append_self ['$']
          · exact infix_of_append_self ma
          · exact infix_of_append_self pr
          · exact infix_of_append_self po
          · exact infix_of_append_self _
          · rw [expand_cons_ne ma pr po gs h1, hLf]
            exact infix_of_append_self ['$', c2]
          · rw [expand_cons_ne ma pr po gs h1, hLf]
            exact infix_of_append_self ['$', c2]
        · have hn : s3.length + 3 = n := by simpa using hlen
          have ih1 : ('\n' :: t') <:+: expandSub ma pr po gs (s3 ++ '\n' :: t') :=
            ih s3.length (by omega) s3 rfl
          have ih2 : ('\n' :: t') <:+: expandSub ma pr po gs ((d :: s3) ++ '\n' :: t') :=
            ih (d :: s3).length (by simp; omega) (d :: s3) rfl
          have ih3 : ('\n' :: t') <:+: expandSub ma pr po gs ((c2 :: d :: s3) ++ '\n' :: t') :=
            ih (c2 :: d :: s3).length (by simp; omega) (c2 :: d :: s3) rfl
          simp only [List.cons_append] at ih2 ih3 ⊢
          simp only [expandSub, backChar, quoteChar]
          split_ifs with h1 h2 h3 h4 h5 h6 h7 h8 h9
          · exact infix_cons_of '$' ih2
          · exact infix_append_of ma ih2
          · exact infix_append_of pr ih2
          · exact infix_append_of po ih2
          · exact infix_append_of _ ih1
          · exact infix_append_of _ ih2
          · exact infix_cons_of '$' ih3
          · exact infix_append_of _ ih2
          · exact infix_cons_of '$' ih3
          · exact infix_cons_of '$' ih3
    · simp only [List.cons_append, expand_cons_ne ma pr po gs hc]
      exact infix_cons_of c (ih s1.length (by simp at hlen; omega) s1 rfl)

/-- The link tag for a dollar-free CSS path is dollar-free. -/
theorem cssLink_noDollar {p : Str} (hp : '$' ∉ p) : '$' ∉ cssLinkFor p := by
  intro hmem
  rw [cssLinkFor] at hmem
  rcases List.mem_append.1 hmem with h | h
  · rcases List.mem_append.1 h with h' | h'
    · exact absurd h' (by decide)
    · exact hp h'
  · exact absurd h (by decide)

/-- `injectCssLink` returns its input unchanged when the input already
contains the link tag. -/
theorem inject_of_contains (html p : Str) (h : cssLinkFor p <:+: html) :
    injectCssLink html p = html := by
  simp only [injectCssLink]
  rw [if_pos h]

/-- For a dollar-free CSS path, the output of `injectCssLink` always
contains the exact link tag it would insert. -/
theorem inject_contains (html p : Str) (hp : '$' ∉ p) :
    cssLinkFor p <:+: injectCssLink html p := by
  have hcl : '$' ∉ cssLinkFor p := cssLink_noDollar hp
  simp only [injectCssLink]
  by_cases h0 : cssLinkFor p <:+: html
  · rw [if_pos h0]
    exact h0
  · rw [if_neg h0]
    rcases hf : findCI (("</head>").toList) html with _ | i
    · rcases ho : findOpenTag (("head").toList) html with _ | ⟨i, len⟩
      · rcases hh : findOpenTag (("html").toList) html with _ | ⟨i, len⟩
        · simp only [hf, ho, hh]
          exact ⟨("<head>\n  ").toList, ("\n</head>\n").toList ++ html,
            by simp [List.append_assoc]⟩
        · simp only [hf, ho, hh, replaceRange]
          have hsplit : ("\n<head>\n  ").toList = '\n' :: ("<head>\n  ").toList := by decide
          have ht' : '$' ∉ (("<head>\n  ").toList ++ cssLinkFor p ++ ("\n</head>").toList) := by
            intro hm
            rcases List.mem_append.1 hm with h | h
            · rcases List.mem_append.1 h with h' | h'
              · exact absurd h' (by decide)
              · exact hcl h'
            · exact absurd h (by decide)
          have hinf := expand_infix_tail ((html.drop i).take len) (html.take i)
            (html.drop (i + len)) [] (("<head>\n  ").toList ++ cssLinkFor p ++ ("\n</head>").toList)
            ht' ((html.drop i).take len)
          have harg : (html.drop i).take len ++ ("\n<head>\n  ").toList ++ cssLinkFor p ++
              ("\n</head>").toList =
              (html.drop i).take len ++
                ('\n' :: (("<head>\n  ").toList ++ cssLinkFor p ++ ("\n</head>").toList)) := by
            rw [hsplit]
            simp [List.append_assoc]
          rw [harg]
          have hx : cssLinkFor p <:+:
              ('\n' :: (("<head>\n  ").toList ++ cssLinkFor p ++ ("\n</head>").toList)) :=
            ⟨'\n' :: ("<head>\n  ").toList, ("\n</head>").toList, by simp [List.append_assoc]⟩
          obtain ⟨u, v, huv⟩ := hx.trans hinf
          refine ⟨html.take i ++ u, v ++ html.drop (i + len), ?_⟩
          rw [← huv]
          simp [List.append_assoc]
      · simp only [hf, ho, replaceRange]
        have hsplit : ("\n  ").toList = '\n' :: ("  ").toList := by decide
        have ht' : '$' ∉ (("  ").toList ++ cssLinkFor p) := by
          intro hm
          rcases List.mem_append.1 hm with h | h
          · exact absurd h (by decide)
          · exact hcl h
        have hinf := expand_infix_tail ((html.drop i).take len) (html.take i)
          (html.drop (i + len)) [] (("  ").toList ++ cssLinkFor p) ht' ((html.drop i).take len)
        have harg : (html.drop i).take len ++ ("\n  ").toList ++ cssLinkFor p =
            (html.drop i).take len ++ ('\n' :: (("  ").toList ++ cssLinkFor p)) := by
          rw [hsplit]
          simp [List.append_assoc]
        rw [harg]
        have hx : cssLinkFor p <:+: ('\n' :: (("  ").toList ++ cssLinkFor p)) :=
          ⟨'\n' :: ("  ").toList, [], by simp⟩
        obtain ⟨u, v, huv⟩ := hx.trans hinf
        refine ⟨html.take i ++ u, v ++ html.drop (i + len), ?_⟩
        rw [← huv]
        simp [List.append_assoc]
    · simp only [hf, replaceRange]
      have ht' : '$' ∉ (("  ").toList ++ cssLinkFor p ++ ("\n</head>").toList) := by
        intro hm
        rcases List.mem_append.1 hm with h | h
        · rcases List.mem_append.1 h with h' | h'
          · exact absurd h' (by decide)
          · exact hcl h'
        · exact absurd h (by decide)
      rw [expand_of_noDollar _ _ _ _ ht']
      exact ⟨html.take i ++ ("  ").toList,
        ("\n</head>").toList ++ html.drop (i + 7), by simp [List.append_assoc]⟩

/-- C7 counterexample: `injectCssLink` is not idempotent for every CSS path:
with the path consisting of two dollar signs, the `GetSubstitution`
expansion turns the inserted tag into one the next call does not
recognise, so a second application inserts a second link tag. -/
theorem c7_counterexample :
    injectCssLink (injectCssLink (("</head>").toList) (("$$").toList)) (("$$").toList) ≠
      injectCssLink (("</head>").toList) (("$$").toList) := by decide

/-- C7 amended: `injectCssLink` is idempotent for every HTML string and
every CSS path without a dollar sign (in particular for the default
`./css/geo.css` used by the build): the output always contains the exact
link tag the function would insert, and the function returns its input
unchanged whenever that tag is present. -/
theorem c7_amended (html p : Str) (hp : '$' ∉ p) :
    injectCssLink (injectCssLink html p) p = injectCssLink html p :=
  inject_of_contains _ _ (inject_contains html p hp)

/-- Witness for the amended C7 theorem at the default CSS path. -/
theorem c7_witness :
    injectCssLink
        (injectCssLink (("<html><head></head></html>").toList) defaultCssPath)
        defaultCssPath =
      injectCssLink (("<html><head></head></html>").toList) defaultCssPath :=
  c7_amended _ _ (by decide)

/-- Members of a `takeWhile` are members of the list. -/
theorem mem_of_mem_takeWhile {p : Char → Bool} :
    ∀ {l : Str} {x : Char}, x ∈ l.takeWhile p → x ∈ l := by
  intro l
  induction l with
  | nil => intro x h; simp at h
  | cons c r ih =>
    intro x h
    rw [List.takeWhile_cons] at h
    by_cases hp : p c = true
    · rw [if_pos hp] at h
      rcases List.mem_cons.1 h with h' | h'
      · exact h' ▸ List.mem_cons_self _ _
      · exact List.mem_cons_of_mem _ (ih h')
    · rw [if_neg hp] at h
      simp at h

/-- The `GetSubstitution` expansion of the fixed class replacement string
of `replaceRootDiv` with one capture group. -/
theorem classExpand_eq (ma pr po : Str) (g : Str) :
    expandSub ma pr po [g] (("class=\"$1 geo-root\"").toList) =
      ("class=\"").toList ++ g ++ (" geo-root\"").toList := by
  simp [expandSub, backChar, quoteChar]

/-- `classReplace` introduces no dollar sign. -/
theorem classReplace_noDollar {s : Str} (h : '$' ∉ s) : '$' ∉ classReplace s := by
  rw [classReplace]
  rcases hf : findClassIdx s 0 with _ | i
  · exact h
  · simp only [replaceRange, classExpand_eq]
    intro hm
    rcases List.mem_append.1 hm with h1 | h1
    · rcases List.mem_append.1 h1 with h2 | h2
      · exact h (List.take_subset _ _ h2)
      · rcases List.mem_append.1 h2 with h3 | h3
        · rcases List.mem_append.1 h3 with h4 | h4
          · exact absurd h4 (by decide)
          · exact h (List.drop_subset _ _ (mem_of_mem_takeWhile h4))
        · exact absurd h3 (by decide)
    · exact h (List.drop_subset _ _ h1)

/-- The groups extracted by `sectionDecompose` consist of characters of the
replacement string. -/
theorem sectionDecompose_subset {repl attrs content : Str}
    (h : sectionDecompose repl = some (attrs, content)) :
    (∀ x ∈ attrs, x ∈ repl) ∧ (∀ x ∈ content, x ∈ repl) := by
  rw [sectionDecompose] at h
  split at h
  · split at h
    next hd => simp at h
    next c t hd =>
      have hct : ∀ x ∈ (c :: t), x ∈ repl := by
        intro x hx
        exact List.mem_of_mem_drop (hd ▸ hx)
      split at h
      · simp only [] at h
        split at h
        next body hdd =>
          split at h
          · injection h with h'
            injection h' with ha hc
            subst ha
            subst hc
            constructor
            · intro x hx
              rcases List.mem_cons.1 hx with h' | h'
              · exact hct _ (h' ▸ List.mem_cons_self _ _)
              · exact hct _ (List.mem_cons_of_mem _ (mem_of_mem_takeWhile h'))
            · intro x hx
              have hb : x ∈ ('>' :: body) :=
                List.mem_cons_of_mem _ (List.take_subset _ _ hx)
              exact hct _ (List.mem_cons_of_mem _ (List.mem_of_mem_drop (hdd ▸ hb)))
          · simp at h
        next hdd => simp at h
      · split at h
        · split at h
          · injection h with h'
            injection h' with ha hc
            subst ha
            subst hc
            refine ⟨by simp, ?_⟩
            intro x hx
            exact hct _ (List.mem_cons_of_mem _ (List.take_subset _ _ hx))
          · simp at h
        · simp at h
  · simp at h

/-- `addGeoRootClass` introduces no dollar sign. -/
theorem addGeo_noDollar {repl : Str} (h : '$' ∉ repl) : '$' ∉ addGeoRootClass repl := by
  rw [addGeoRootClass]
  split
  case h_2 hs =>
    intro hm
    rcases List.mem_append.1 hm with h1 | h1
    · rcases List.mem_append.1 h1 with h2 | h2
      · exact absurd h2 (by decide)
      · exact h h2
    · exact absurd h1 (by decide)
  case h_1 attrs content hs =>
    have hsub := sectionDecompose_subset hs
    by_cases hcl : ("class=").toList <:+: attrs
    · rw [if_pos hcl]
      exact classReplace_noDollar h
    · rw [if_neg hcl]
      intro hm
      rcases List.mem_append.1 hm with h1 | h1
      · rcases List.mem_append.1 h1 with h2 | h2
        · rcases List.mem_append.1 h2 with h3 | h3
          · rcases List.mem_append.1 h3 with h4 | h4
            · exact absurd h4 (by decide)
            · exact h (hsub.1 _ h4)
          · exact absurd h3 (by decide)
        · exact h (hsub.2 _ h2)
      · exact absurd h1 (by decide)

/-- With a dollar-free inserted string, the faithful global replacement and
the verbatim one of the specification sentence coincide, fuel and scan
position being equal. -/
theorem replaceAllGo_eq_spec (eid rwc : Str) (h : '$' ∉ rwc) :
    ∀ (fuel : Nat) (revPre u : Str),
      replaceAllGo eid rwc fuel revPre u = specReplaceGo eid rwc fuel u := by
  intro fuel
  induction fuel with
  | zero => intro revPre u; rfl
  | succ f ih =>
    intro revPre u
    simp only [replaceAllGo, specReplaceGo]
    rcases hm : elemMatchLen eid u with _ | r
    · simp only [hm]
      rcases u with _ | ⟨c, rest⟩
      · rfl
      · simp only
        rw [ih]
    · simp only [hm]
      rw [expand_of_noDollar _ _ _ _ h, ih]

/-- C2 counterexample: `replaceRootDiv` does not insert the geo-root-classed
replacement verbatim: a replacement containing the `$&` template makes
`String.prototype.replace` substitute the matched element into the
inserted text, so the result differs from the claimed one. -/
theorem c2_counterexample :
    replaceRootDiv (("<div id=\"x\">old</div>").toList) (("x").toList) (("$&").toList) ≠
      specReplaceRootDiv (("<div id=\"x\">old</div>").toList) (("x").toList)
        (("$&").toList) := by decide

/-- C2 amended: `replaceRootDiv(html, elementId, replacement)` replaces
every substring of `html` matching the element regex — any tag name, both
quote styles, lazily matched content, matching close tag of the same name,
no HTML parser — by the geo-root-classed replacement passed through the
replacement-pattern substitution of `String.prototype.replace`; whenever
the replacement contains no dollar sign the substitution is the identity
and the insertion is the geo-root-classed replacement HTML verbatim, as
the specification sentence states. -/
theorem c2_amended (html elementId repl : Str) (h : '$' ∉ repl) :
    replaceRootDiv html elementId repl = specReplaceRootDiv html elementId repl :=
  replaceAllGo_eq_spec elementId (addGeoRootClass repl) (addGeo_noDollar h)
    html.length [] html

/-- Witness for the amended C2 theorem at a concrete page. -/
theorem c2_witness :
    replaceRootDiv (("<p><div id=\"geo-root\">old</div></p>").toList)
        (("geo-root").toList) (("<b>new</b>").toList) =
      specReplaceRootDiv (("<p><div id=\"geo-root\">old</div></p>").toList)
        (("geo-root").toList) (("<b>new</b>").toList) :=
  c2_amended _ _ _ (by decide)

/-- Taking exactly the length of the left part of an append. -/
theorem take_len_append (l₁ l₂ : Str) : (l₁ ++ l₂).take l₁.length = l₁ := by
  induction l₁ with
  | nil => rfl
  | cons c r ih => simp [ih]

/-- Dropping exactly the length of the left part of an append. -/
theorem drop_len_append (l₁ l₂ : Str) : (l₁ ++ l₂).drop l₁.length = l₂ := by
  induction l₁ with
  | nil => rfl
  | cons c r ih => simp [ih]

/-- Splitting a `take` at an intermediate point. -/
theorem take_add' : ∀ (l : Str) (m n : Nat), l.take (m + n) = l.take m ++ (l.drop m).take n := by
  intro l
  induction l with
  | nil => intro m n; simp
  | cons c r ih =>
    intro m n
    rcases m with _ | m
    · simp
    · rw [show Nat.succ m + n = (m + n) + 1 from by omega]
      simp only [List.take_succ_cons, List.drop_succ_cons, List.cons_append]
      rw [ih]

/-- Taking within the left part of an append. -/
theorem take_append_le : ∀ (l₁ l₂ : Str) (n : Nat), n ≤ l₁.length →
    (l₁ ++ l₂).take n = l₁.take n := by
  intro l₁
  induction l₁ with
  | nil =>
    intro l₂ n h
    simp at h
    simp [h]
  | cons c r ih =>
    intro l₂ n h
    rcases n with _ | n
    · simp
    · simp only [List.cons_append, List.take_succ_cons]
      rw [ih l₂ n (by simpa using h)]

/-- `takeWhile` never exceeds the list length. -/
theorem takeWhile_length_le (p : Char → Bool) : ∀ l : Str, (l.takeWhile p).length ≤ l.length := by
  intro l
  induction l with
  | nil => simp
  | cons c r ih =>
    rw [List.takeWhile_cons]
    split
    · simpa using ih
    · simp

/-- A pointwise stronger predicate gives a shorter `takeWhile`. -/
theorem takeWhile_mono_length {p q : Char → Bool} (hpq : ∀ x, p x = true → q x = true) :
    ∀ l : Str, (l.takeWhile p).length ≤ (l.takeWhile q).length := by
  intro l
  induction l with
  | nil => simp
  | cons c r ih =>
    rw [List.takeWhile_cons, List.takeWhile_cons]
    by_cases hp : p c = true
    · rw [if_pos hp, if_pos (hpq c hp)]
      simpa using ih
    · simp [hp]

/-- A list whose `takeWhile` is proper splits at the first failing element. -/
theorem takeWhile_decomp (p : Char → Bool) : ∀ l : Str, (l.takeWhile p).length ≠ l.length →
    ∃ g, ¬(p g = true) ∧ l = l.takeWhile p ++ g :: l.drop ((l.takeWhile p).length + 1) := by
  intro l
  induction l with
  | nil => intro h; simp at h
  | cons c r ih =>
    intro h
    rw [List.takeWhile_cons] at h ⊢
    by_cases hp : p c = true
    · rw [if_pos hp] at h ⊢
      have hne : (r.takeWhile p).length ≠ r.length := by
        simp only [List.length_cons] at h
        omega
      obtain ⟨g, hg, hdec⟩ := ih hne
      refine ⟨g, hg, ?_⟩
      simp only [List.length_cons, List.drop_succ_cons, List.cons_append]
      exact congrArg (c :: ·) hdec
    · rw [if_neg hp] at h ⊢
      exact ⟨c, hp, by simp⟩

/-- A `take` within the extent of a `takeWhile` is a `take` of it. -/
theorem take_of_takeWhile_le (p : Char → Bool) : ∀ (l : Str) (k : Nat),
    k ≤ (l.takeWhile p).length → l.take k = (l.takeWhile p).take k := by
  intro l
  induction l with
  | nil => intro k h; simp
  | cons c r ih =>
    intro k h
    rw [List.takeWhile_cons] at h ⊢
    by_cases hp : p c = true
    · rw [if_pos hp] at h ⊢
      rcases k with _ | k
      · simp
      · simp only [List.take_succ_cons]
        rw [ih k (by simpa using h)]
    · rw [if_neg hp] at h
      simp at h
      simp [h]

/-- A case-insensitive match is at least as long as its pattern. -/
theorem ciStarts_length : ∀ {pat s : Str}, ciStarts pat s = true → pat.length ≤ s.length := by
  intro pat
  induction pat with
  | nil => intro s _; simp
  | cons p ps ih =>
    intro s h
    rcases s with _ | ⟨c, cs⟩
    · simp [ciStarts] at h
    · rw [ciStarts] at h
      simp only [List.length_cons]
      have := ih (Bool.and_eq_true_iff.1 h).2
      omega

/-- A case-insensitive match restricts to the pattern-length `take`. -/
theorem ciStarts_take : ∀ {pat s : Str}, ciStarts pat s = true →
    ciStarts pat (s.take pat.length) = true := by
  intro pat
  induction pat with
  | nil => intro s _; rfl
  | cons p ps ih =>
    intro s h
    rcases s with _ | ⟨c, cs⟩
    · simp [ciStarts] at h
    · rw [ciStarts] at h
      rcases Bool.and_eq_true_iff.1 h with ⟨h1, h2⟩
      simp only [List.length_cons, List.take_succ_cons]
      rw [ciStarts, h1, ih h2]
      rfl

/-- The attribute region of the element regex, described as the claim reads:
somewhere in it, a whitespace character is immediately followed by `id=`
(case-insensitive), a quote, the element id (case-insensitive) and a
quote; the two quotes are independent. -/
def AttrsHaveId (eid : Str) (attrs : Str) : Prop :=
  ∃ (a : Str) (w : Char) (idt : Str) (q1 : Char) (et : Str) (q2 : Char) (b : Str),
    attrs = a ++ w :: (idt ++ q1 :: (et ++ q2 :: b)) ∧
    jsWS w = true ∧ idt.length = 3 ∧ ciStarts (("id=").toList) idt = true ∧
    isQuote q1 = true ∧ et.length = eid.length ∧ ciStarts eid et = true ∧
    isQuote q2 = true

/-- A string matching the whole element regex, described as the claim reads:
an opening tag of some tag name (a letter followed by letters and digits)
whose attribute region contains no greater-than sign and carries the id,
then arbitrary content, then a closing tag of the same tag name
(case-insensitive). -/
def IsElemMatch (eid : Str) (m : Str) : Prop :=
  ∃ (c0 : Char) (nr attrs content closing : Str),
    m = '<' :: ((c0 :: nr) ++ attrs) ++ '>' :: (content ++ closing) ∧
    c0.isAlpha = true ∧ (∀ x ∈ nr, x.isAlphanum = true) ∧
    (∀ x ∈ attrs, x ≠ '>') ∧
    AttrsHaveId eid attrs ∧
    closing.length = nr.length + 4 ∧
    ciStarts ('<' :: '/' :: ((c0 :: nr) ++ ['>'])) closing = true

/-- Success of `idAt` yields the claimed decomposition. -/
theorem idAt_sound {eid s : Str} (h : idAt eid s = true) :
    ∃ (idt : Str) (q1 : Char) (et : Str) (q2 : Char) (b : Str),
      s = idt ++ q1 :: (et ++ q2 :: b) ∧ idt.length = 3 ∧
      ciStarts (("id=").toList) idt = true ∧ isQuote q1 = true ∧
      et.length = eid.length ∧ ciStarts eid et = true ∧ isQuote q2 = true := by
  rw [idAt] at h
  rcases Bool.and_eq_true_iff.1 h with ⟨h1, h2⟩
  have hlen3 : 3 ≤ s.length := by
    have := ciStarts_length h1
    simpa using this
  split at h2
  next q1 t2 hd =>
    rcases Bool.and_eq_true_iff.1 h2 with ⟨h3, h4⟩
    rcases Bool.and_eq_true_iff.1 h3 with ⟨hq1, het⟩
    have hlen : eid.length ≤ t2.length := ciStarts_length het
    split at h4
    next q2 b hd2 =>
      refine ⟨s.take 3, q1, t2.take eid.length, q2, b, ?_, ?_, ?_, hq1, ?_, ?_, h4⟩
      · conv_lhs => rw [← List.take_append_drop 3 s]
        rw [hd]
        congr 1
        conv_lhs => rw [← List.take_append_drop eid.length t2]
        rw [hd2]
      · simp [List.length_take]
        omega
      · have := ciStarts_take h1
        simpa using this
      · simp [List.length_take]
        omega
      · exact ciStarts_take het
    next hd2 => simp at h4
  next hd => simp at h2

/-- Success of `attrsOK` yields a whitespace position followed by the id
pattern. -/
theorem attrsOK_sound (eid : Str) : ∀ {attrs : Str}, attrsOK eid attrs = true →
    ∃ (a : Str) (w : Char) (rest : Str),
      attrs = a ++ w :: rest ∧ jsWS w = true ∧ idAt eid rest = true := by
  intro attrs
  induction attrs with
  | nil => intro h; simp [attrsOK] at h
  | cons c r ih =>
    intro h
    rw [attrsOK] at h
    rcases Bool.or_eq_true_iff.1 h with h1 | h1
    · rcases Bool.and_eq_true_iff.1 h1 with ⟨hw, hid⟩
      exact ⟨[], c, r, by simp, hw, hid⟩
    · obtain ⟨a, w, rest, hdec, hw, hid⟩ := ih h1
      exact ⟨c :: a, w, rest, by simp [hdec], hw, hid⟩

/-- Success of `findCIAux` means a case-insensitive occurrence at the
reported index. -/
theorem findCIAux_sound (pat : Str) : ∀ (s : Str) (i j : Nat),
    findCIAux pat s i = some j →
      i ≤ j ∧ j - i ≤ s.length ∧ ciStarts pat (s.drop (j - i)) = true := by
  intro s
  induction s with
  | nil =>
    intro i j h
    rw [findCIAux] at h
    split at h
    · injection h with h'
      subst h'
      simpa using (by assumption : ciStarts pat [] = true)
    · simp at h
  | cons c rest ih =>
    intro i j h
    rw [findCIAux] at h
    split at h
    · injection h with h'
      subst h'
      simp only [Nat.sub_self, List.drop_zero]
      exact ⟨Nat.le_refl _, by simp, by assumption⟩
    · obtain ⟨h1, h2, h3⟩ := ih (i + 1) j h
      refine ⟨by omega, by simp; omega, ?_⟩
      have : (c :: rest).drop (j - i) = rest.drop (j - (i + 1)) := by
        rw [show j - i = (j - (i + 1)) + 1 from by omega]
        simp
      rw [this]
      exact h3

/-- Success of `findCI` means a case-insensitive occurrence at the index. -/
theorem findCI_sound {pat s : Str} {j : Nat} (h : findCI pat s = some j) :
    j ≤ s.length ∧ ciStarts pat (s.drop j) = true := by
  obtain ⟨h1, h2, h3⟩ := findCIAux_sound pat s 0 j h
  simpa using ⟨h2, h3⟩

/-- Success of `tryK` comes from some tag-name length in range, with the
reported length and groups determined by it. -/
theorem tryK_sound (eid rest pre : Str) : ∀ {k : Nat} {r : Nat × Str × Str × Str},
    tryK eid rest pre k = some r →
      ∃ kk c, 1 ≤ kk ∧ kk ≤ k ∧ attrsOK eid (pre.drop kk) = true ∧
        findCI ('<' :: '/' :: ((rest.take kk) ++ ['>'])) (rest.drop (pre.length + 1)) =
          some c ∧
        r = (1 + pre.length + 1 + c + (kk + 3), rest.take kk, pre.drop kk,
          (rest.drop (pre.length + 1)).take c) := by
  intro k
  induction k with
  | zero => intro r h; simp [tryK] at h
  | succ k ih =>
    intro r h
    rw [tryK] at h
    split at h
    · split at h
      next c hfind =>
        injection h with h'
        exact ⟨k + 1, c, by omega, Nat.le_refl _, by assumption, hfind, h'.symm⟩
      next hfind =>
        obtain ⟨kk, c, hk1, hk2, ha, hf, hr⟩ := ih h
        exact ⟨kk, c, hk1, by omega, ha, hf, hr⟩
    · obtain ⟨kk, c, hk1, hk2, ha, hf, hr⟩ := ih h
      exact ⟨kk, c, hk1, by omega, ha, hf, hr⟩

/-- Soundness of the operational matcher: a successful match at the head of
`u` is an instance of the declarative element pattern, of the reported
length. -/
theorem elemMatch_sound {eid u : Str} {r : Nat × Str × Str × Str}
    (h : elemMatchLen eid u = some r) :
    IsElemMatch eid (u.take r.1) ∧ r.1 ≤ u.length := by
  rw [elemMatchLen.eq_def] at h
  split at h
  case h_2 => simp at h
  case h_1 rest =>
    simp only [] at h
    split at h
    case isTrue => simp at h
    case isFalse hne =>
      split at h
      case h_2 => simp at h
      case h_1 c0 tl =>
        split at h
        case isFalse => simp at h
        case isTrue halpha =>
          obtain ⟨kk, cpos, hkk1, hkkmax, hattrs, hfind, hr⟩ := tryK_sound _ _ _ h
          subst hr
          dsimp only
          obtain ⟨g, hg, hdecomp⟩ :=
            takeWhile_decomp (fun x => decide (x ≠ '>')) (c0 :: tl) hne
          have hgt : g = '>' := by simpa using hg
          subst hgt
          set preR : Str := List.takeWhile (fun x => decide (x ≠ '>')) (c0 :: tl) with hpreR
          set afterGt : Str := List.drop (preR.length + 1) (c0 :: tl) with hafter
          have hmono : kk ≤ preR.length := by
            refine le_trans hkkmax ?_
            rw [hpreR]
            refine takeWhile_mono_length ?_ (c0 :: tl)
            intro x hx
            have hxne : x ≠ '>' := by
              intro he
              subst he
              simp at hx
            simpa using hxne
          have hpre_le : preR.length ≤ (c0 :: tl).length := by
            rw [hpreR]
            exact takeWhile_length_le _ _
          have hkk_le : kk ≤ (c0 :: tl).length := le_trans hmono hpre_le
          have hlen_split : (c0 :: tl).length = preR.length + 1 + afterGt.length := by
            conv_lhs => rw [hdecomp]
            simp [List.length_append]
            omega
          rcases findCI_sound hfind with ⟨hc_le, hcic⟩
          have hnamelen : (List.take kk (c0 :: tl)).length = kk := by
            rw [List.length_take]
            exact Nat.min_eq_left hkk_le
          have hctlen : ('<' :: '/' :: (List.take kk (c0 :: tl) ++ ['>'])).length = kk + 3 := by
            simp only [List.length_cons, List.length_append, hnamelen]
            simp
          have hcl_len_le : kk + 3 ≤ (afterGt.drop cpos).length := by
            have hh := ciStarts_length hcic
            rwa [hctlen] at hh
          have hdrop_len : (afterGt.drop cpos).length = afterGt.length - cpos := by simp
          obtain ⟨kk', rfl⟩ : ∃ kk', kk = kk' + 1 := ⟨kk - 1, by omega⟩
          constructor
          · refine ⟨c0, tl.take kk', preR.drop (kk' + 1), afterGt.take cpos,
              (afterGt.drop cpos).take (kk' + 1 + 3), ?_, halpha, ?_, ?_, ?_, ?_, ?_⟩
            · -- the m-equation
              rw [show (1 + preR.length + 1 + cpos + (kk' + 1 + 3)) =
                  (preR.length + (1 + (cpos + (kk' + 1 + 3)))) + 1 from by omega]
              rw [List.take_succ_cons]
              conv_lhs => rw [hdecomp]
              rw [take_add', take_len_append, drop_len_append]
              rw [show 1 + (cpos + (kk' + 1 + 3)) = (cpos + (kk' + 1 + 3)) + 1 from by omega]
              rw [List.take_succ_cons]
              rw [take_add' afterGt cpos (kk' + 1 + 3)]
              have hname_eq : (c0 :: tl.take kk') = preR.take (kk' + 1) := by
                have h1 : (c0 :: tl).take (kk' + 1) = c0 :: tl.take kk' := rfl
                rw [← h1]
                conv_lhs => rw [hdecomp]
                exact take_append_le _ _ _ hmono
              rw [hname_eq]
              rw [List.take_append_drop]
              simp [List.append_assoc]
            · intro x hx
              have hx1 : x ∈ (c0 :: tl).take (kk' + 1) := by
                rw [show (c0 :: tl).take (kk' + 1) = c0 :: tl.take kk' from rfl]
                exact List.mem_cons_of_mem _ hx
              rw [take_of_takeWhile_le Char.isAlphanum (c0 :: tl) (kk' + 1) hkkmax] at hx1
              exact List.mem_takeWhile_imp (List.take_subset _ _ hx1)
            · intro x hx
              have hx1 : x ∈ preR := List.drop_subset _ _ hx
              rw [hpreR] at hx1
              have := List.mem_takeWhile_imp hx1
              exact of_decide_eq_true this
            · obtain ⟨a, w, rest', hdeca, hw, hid⟩ := attrsOK_sound eid hattrs
              obtain ⟨idt, q1, et, q2, b, hdecid, hl3, hciid, hq1, hlet, hciet, hq2⟩ :=
                idAt_sound hid
              exact ⟨a, w, idt, q1, et, q2, b, by rw [hdeca, hdecid], hw, hl3, hciid,
                hq1, hlet, hciet, hq2⟩
            · have hA : ((afterGt.drop cpos).take (kk' + 1 + 3)).length = kk' + 1 + 3 := by
                rw [List.length_take]
                exact Nat.min_eq_left hcl_len_le
              have hB : (tl.take kk').length = kk' := by
                rw [List.length_take]
                refine Nat.min_eq_left ?_
                have h1 : kk' + 1 ≤ tl.length + 1 := by simpa using hkk_le
                omega
              rw [hA, hB]
            · have hcic2 := ciStarts_take hcic
              rw [hctlen] at hcic2
              exact hcic2
          · simp only [List.length_cons] at hlen_split ⊢
            omega

/-- The identity behaviour of the global replacement scan when no suffix of
the subject matches. -/
theorem replaceAllGo_id (eid rwc : Str) :
    ∀ (fuel : Nat) (revPre u : Str),
      (∀ v : Str, v <:+ u → elemMatchLen eid v = none) →
      replaceAllGo eid rwc fuel revPre u = u := by
  intro fuel
  induction fuel with
  | zero => intro _ _ _; rfl
  | succ f ih =>
    intro revPre u hnm
    simp only [replaceAllGo]
    rw [hnm u (List.suffix_refl u)]
    rcases u with _ | ⟨c, rest⟩
    · rfl
    · simp only
      rw [ih (c :: revPre) rest
        (fun v hv => hnm v (hv.trans (List.suffix_cons c rest)))]

/-- C8: when no substring of the input matches the element regex for the
given id — stated declaratively through `IsElemMatch` — `replaceRootDiv`
returns its input exactly (the console warning aside). -/
theorem c8_no_match_identity (html elementId repl : Str)
    (h : ¬ ∃ m : Str, IsElemMatch elementId m ∧ m <:+: html) :
    replaceRootDiv html elementId repl = html := by
  rw [replaceRootDiv]
  refine replaceAllGo_id _ _ html.length [] html ?_
  intro v hv
  rcases hm : elemMatchLen elementId v with _ | r
  · rfl
  · exfalso
    have hs := elemMatch_sound hm
    refine h ⟨v.take r.1, hs.1, ?_⟩
    obtain ⟨s, hsv⟩ := hv
    obtain ⟨t, htv⟩ := List.take_prefix r.1 v
    exact ⟨s, t, by rw [List.append_assoc, htv, hsv]⟩

/-- A page with no less-than sign admits no element match at all. -/
theorem no_elem_match_of_no_lt {eid html : Str} (h : '<' ∉ html) :
    ¬ ∃ m : Str, IsElemMatch eid m ∧ m <:+: html := by
  rintro ⟨m, hm, hinf⟩
  obtain ⟨c0, nr, attrs, content, closing, hdecomp, -⟩ := hm
  apply h
  refine hinf.subset ?_
  rw [hdecomp]
  exact List.mem_cons_self _ _

/-- Witness for C8 on a concrete page without markup. -/
theorem c8_witness :
    replaceRootDiv (("hello, plain text page").toList) (("geo-root").toList)
        (("<b>x</b>").toList) = ("hello, plain text page").toList :=
  c8_no_match_identity _ _ _ (no_elem_match_of_no_lt (by decide))

/-- A found entry is a member of the entry list. -/
theorem findEntry_mem : ∀ {es : List (String × FSTree)} {n : String} {t : FSTree},
    findEntry es n = some t → (n, t) ∈ es := by
  intro es
  induction es with
  | nil => intro n t h; simp [findEntry] at h
  | cons e rest ih =>
    intro n t h
    rw [findEntry.eq_def] at h
    rcases e with ⟨m, t'⟩
    by_cases hm : m = n
    · subst hm
      simp at h
      subst h
      exact List.mem_cons_self _ _
    · simp [hm] at h
      exact List.mem_cons_of_mem _ (ih h)

/-- Every member of a well-formed entry list has a well-formed tree. -/
theorem wfL_of_mem : ∀ {es : List (String × FSTree)} {n : String} {t : FSTree},
    wfL es = true → (n, t) ∈ es → wfT t = true := by
  intro es
  induction es with
  | nil => intro n t _ hm; simp at hm
  | cons e rest ih =>
    intro n t hw hm
    rw [wfL] at hw
    rcases List.mem_cons.1 hm with h | h
    · subst h
      exact (Bool.and_eq_true_iff.1 hw).1
    · exact ih (Bool.and_eq_true_iff.1 hw).2 h

/-- A name absent from the list is not found. -/
theorem findEntry_of_not_containsKey :
    ∀ {es : List (String × FSTree)} {n : String},
      containsKey es n = false → findEntry es n = none := by
  intro es
  induction es with
  | nil => intro n _; rfl
  | cons e rest ih =>
    intro n h
    rcases e with ⟨m, t'⟩
    rw [containsKey] at h
    rw [findEntry]
    rcases Bool.or_eq_false_iff.1 h with ⟨h1, h2⟩
    simp only [decide_eq_false_iff_not] at h1
    simp [h1, ih h2]

/-- Copying never invents entries: a name not found in the source entry
list is not found in the copied one. -/
theorem findEntry_copyEntries_none (ig : List String) (pre : List String) :
    ∀ {es : List (String × FSTree)} {n : String},
      findEntry es n = none → findEntry (copyEntries ig pre es) n = none := by
  intro es
  induction es with
  | nil => intro n _; rfl
  | cons e rest ih =>
    intro n h
    rcases e with ⟨m, t'⟩
    rw [findEntry] at h
    by_cases hm : m = n
    · simp [hm] at h
    · simp only [hm, if_false] at h
      rw [copyEntries]
      split
      · rw [findEntry]
        simp [hm, ih h]
      · exact ih h

/-- Lookup in a copied entry list: with distinct names, a found entry is
kept exactly when it passes the ignore test, and is then the recursive
copy of the original subtree. -/
theorem findEntry_copyEntries (ig : List String) (pre : List String) :
    ∀ {es : List (String × FSTree)} {n : String}, keysNodup es = true →
      findEntry (copyEntries ig pre es) n =
        (match findEntry es n with
         | some t => if passes ig pre n then some (copyDirT ig (pre ++ [n]) t) else none
         | none => none) := by
  intro es
  induction es with
  | nil => intro n _; rfl
  | cons e rest ih =>
    intro n hnd
    rcases e with ⟨m, t'⟩
    rw [keysNodup] at hnd
    rcases Bool.and_eq_true_iff.1 hnd with ⟨hnotin, hndrest⟩
    rw [Bool.not_eq_true'] at hnotin
    by_cases hm : m = n
    · subst hm
      by_cases hp : passes ig pre m = true <;>
        simp [copyEntries, findEntry, hp,
          findEntry_copyEntries_none ig pre (findEntry_of_not_containsKey hnotin)]
    · by_cases hp : passes ig pre m = true <;>
        simp [copyEntries, findEntry, hm, hp, ih hndrest]

/-- File lookup after `copyDir`, generalised over the descent path `pre`:
a file survives exactly when every entry on its path passes the ignore
test, and then with identical contents. -/
theorem lookupFile_copyDirT (ig : List String) :
    ∀ (p : List String) (pre : List String) (t : FSTree), wfT t = true →
      lookupFile (copyDirT ig pre t) p =
        (if allPasses ig pre p then lookupFile t p else none) := by
  intro p
  induction p with
  | nil =>
    intro pre t _
    rcases t with c | es <;> simp [copyDirT, lookupFile, allPasses]
  | cons n p' ih =>
    intro pre t hwf
    rcases t with c | es
    · simp [copyDirT, lookupFile]
    · rw [wfT] at hwf
      rcases Bool.and_eq_true_iff.1 hwf with ⟨hnd, hwl⟩
      simp only [copyDirT, lookupFile]
      rw [findEntry_copyEntries ig pre hnd]
      rcases h : findEntry es n with _ | t'
      · simp [h]
      · simp only [h]
        by_cases hp : passes ig pre n = true
        · simp only [hp, if_true]
          rw [ih (pre ++ [n]) t' (wfL_of_mem hwl (findEntry_mem h))]
          rw [allPasses]
          simp [hp]
        · rw [if_neg hp, allPasses]
          rw [Bool.not_eq_true] at hp
          simp [hp]

/-- C6: `copyDir`, as invoked by `main` on the top-level source directory,
has the claimed ignore-list semantics: a file of the source tree is
present in the copy — at the same path and with the same contents, so the
directory structure of copied entries is preserved — exactly when, for
every entry on its path, neither the entry base name nor its slash-joined
path relative to the source root is in the ignore list; in particular an
entry inside an ignored directory is never copied. -/
theorem c6_copyDir_ignore (ig : List String) (t : FSTree) (p : List String)
    (hwf : wfT t = true) :
    lookupFile (copyDirT ig [] t) p =
      (if allPasses ig [] p then lookupFile t p else none) :=
  lookupFile_copyDirT ig p [] t hwf

/-- Witness for C6 on a concrete tree: a clean file is copied verbatim, a
file under an ignored directory disappears, and a file whose relative path
is ignored disappears while its sibling of equal base name elsewhere is
kept. -/
theorem c6_witness :
    lookupFile
      (copyDirT ["node_modules", "js/secret"] []
        (FSTree.dir
          [("index.html", .file "h"),
           ("node_modules", .dir [("pkg", .file "x")]),
           ("js", .dir [("secret", .file "s"), ("app", .file "code")]),
           ("lib", .dir [("secret", .file "s2")])]))
      ["js", "app"] = some "code" ∧
    lookupFile
      (copyDirT ["node_modules", "js/secret"] []
        (FSTree.dir
          [("index.html", .file "h"),
           ("node_modules", .dir [("pkg", .file "x")]),
           ("js", .dir [("secret", .file "s"), ("app", .file "code")]),
           ("lib", .dir [("secret", .file "s2")])]))
      ["node_modules", "pkg"] = none ∧
    lookupFile
      (copyDirT ["node_modules", "js/secret"] []
        (FSTree.dir
          [("index.html", .file "h"),
           ("node_modules", .dir [("pkg", .file "x")]),
           ("js", .dir [("secret", .file "s"), ("app", .file "code")]),
           ("lib", .dir [("secret", .file "s2")])]))
      ["js", "secret"] = none ∧
    lookupFile
      (copyDirT ["node_modules", "js/secret"] []
        (FSTree.dir
          [("index.html", .file "h"),
           ("node_modules", .dir [("pkg", .file "x")]),
           ("js", .dir [("secret", .file "s"), ("app", .file "code")]),
           ("lib", .dir [("secret", .file "s2")])]))
      ["lib", "secret"] = some "s2" := by
  refine ⟨?_, ?_, ?_, ?_⟩ <;>
    (rw [c6_copyDir_ignore _ _ _ (by decide)]; decide)
